import Mathlib

/-!
# Verification of the `event_study` pipeline

A shallow embedding of the `event_study` Python package (an event study over
daily stock returns and analyst recommendations) together with proofs about
the claims of its specification.

Modelling conventions, applied throughout:

* pandas `Timestamp` dates are embedded as `Int` day numbers (days since the
  civil epoch 1970-01-01); adding `k` calendar days is integer addition.
  `daysFromCivil` converts a `(year, month, day)` calendar date to its day
  number, so concrete dates from the spec can be written down.
* float columns are embedded as `Option ℚ`: `some q` is a finite float value,
  `none` is NaN (pandas' missing-value marker).  IEEE rounding is out of scope;
  arithmetic on present values is exact rational arithmetic.
* a pandas `DataFrame` is a `List` of row structures; a join on an index is a
  `flatMap`/`filter` over rows; `DataFrame.sort_index` is `List.insertionSort`
  by the index relation.
* code that raises an exception is embedded in `Except String`, the error
  carrying the offending value.
-/

namespace EventStudy

/-! ## Calendar dates

`daysFromCivil y m d` is the number of days from 1970-01-01 to the civil date
`y-m-d` (Gregorian calendar, the same day numbering pandas uses for
`Timestamp`).  This is the standard "days from civil" algorithm, written with
`Nat` arithmetic (valid for years ≥ 1) and a final `Int` subtraction. -/
def daysFromCivil (y m d : Nat) : Int :=
  let y' := if m ≤ 2 then y - 1 else y
  let era := y' / 400
  let yoe := y' - era * 400
  let mp := if 2 < m then m - 3 else m + 9
  let doy := (153 * mp + 2) / 5 + d - 1
  let doe := yoe * 365 + yoe / 4 - yoe / 100 + doy
  (((era * 146097 + doe : Nat)) : Int) - 719468

/-! ## `config.standardise_colnames`

A table, for the purposes of column renaming, is a list of
`(column label, column data)` pairs.  `standardise_colnames` embeds
`config.standardise_colnames`: labels are lower-cased with spaces replaced by
underscores via the inner `_parse_name`, and `df.rename` applies the map to
every label, leaving the data untouched (pandas `rename` happily produces
duplicate labels). -/

/-- Python `str.lower` on one character (the column labels and firm names of
the data are ASCII, where Python's and this definition's case mapping
coincide). -/
def lowerChar (ch : Char) : Char :=
  if 'A' ≤ ch ∧ ch ≤ 'Z' then Char.ofNat (ch.toNat + 32) else ch

/-- Python `str.upper` on one character (ASCII). -/
def upperChar (ch : Char) : Char :=
  if 'a' ≤ ch ∧ ch ≤ 'z' then Char.ofNat (ch.toNat - 32) else ch

/-- Python `str.upper` (ASCII). -/
def upperStr (s : String) : String :=
  String.mk (s.data.map upperChar)

/-- `colname.lower().replace(' ', '_')` from `config._parse_name`. -/
def normalise_name (c : String) : String :=
  String.mk ((c.data.map lowerChar).map (fun ch => if ch = ' ' then '_' else ch))

/-- The inner `_parse_name` of `config.standardise_colnames`: `cols` is the set
of original column labels of the frame. -/
def parse_name (cols : List String) (colname : String) : String :=
  let new_name := normalise_name colname
  if new_name = colname then colname
  else if new_name ∈ cols then "_" ++ new_name
  else new_name

/-- `config.standardise_colnames`: rename every column by `_parse_name`;
column data is carried unchanged. -/
def standardise_colnames {α : Type} (tbl : List (String × α)) : List (String × α) :=
  let cols := tbl.map Prod.fst
  tbl.map (fun p => (parse_name cols p.1, p.2))

/-! ## `mk_rets.mk_ret_df`

`PrcRow` is a parsed row of `<tic>_prc.csv` (only the `date` index and the
`close` column matter to the function); `FFRow` a row of `ff_daily.csv` with
the `mkt` column (possibly NaN); `RetRow` a row of the output frame with the
`ret` and `mkt` float columns (possibly NaN before `dropna`). -/

structure PrcRow where
  date : Int
  close : ℚ
deriving DecidableEq

structure FFRow where
  date : Int
  mkt : Option ℚ
deriving DecidableEq

structure RetRow where
  date : Int
  ret : Option ℚ
  mkt : Option ℚ
deriving DecidableEq

/-- `df.sort_index()` order for price rows. -/
def prcLe (a b : PrcRow) : Prop := a.date ≤ b.date

instance : DecidableRel prcLe := fun a b => inferInstanceAs (Decidable (a.date ≤ b.date))

instance : IsTotal PrcRow prcLe := ⟨fun a b => Int.le_total a.date b.date⟩

instance : IsTrans PrcRow prcLe := ⟨fun _ _ _ h₁ h₂ => Int.le_trans h₁ h₂⟩

/-- `close.pct_change()` over the (already sorted) price rows: each row is
paired with `close / previous close − 1`; the first row (no previous close)
gets NaN.  The first argument is the close of the preceding row, if any. -/
def addRets : Option ℚ → List PrcRow → List (PrcRow × Option ℚ)
  | _, [] => []
  | prev, p :: rest =>
      (p, prev.map (fun c => p.close / c - 1)) :: addRets (some p.close) rest

/-- `mk_rets.mk_ret_df`, with file reading abstracted out: `prc` is the parsed
price CSV and `ff` the parsed market-factor CSV.  Steps, as in the source:
sort by date, `pct_change` on close, inner-join `ff` on date keeping
`{mkt, ret}`, then `dropna`. -/
def mk_ret_df (prc : List PrcRow) (ff : List FFRow) : List RetRow :=
  let sorted := List.insertionSort prcLe prc
  let withRet := addRets none sorted
  let joined := withRet.flatMap (fun pr =>
    (ff.filter (fun f => f.date = pr.1.date)).map
      (fun f => RetRow.mk pr.1.date pr.2 f.mkt))
  joined.filter (fun r => r.ret.isSome && r.mkt.isSome)

/-! ## `mk_events.mk_event_df`

`RecRow` is a parsed row of `<tic>_rec.csv`: the `Date` index is a timestamp
whose calendar-date part is `date` and whose intra-day part is `time`
(chronological order is lexicographic on `(date, time)`); `firm` and `action`
are the two retained columns.  `Event` is a row of the output frame. -/

structure RecRow where
  date : Int
  time : Int
  firm : String
  action : String
deriving DecidableEq

structure Event where
  firm : String
  event_date : Int
  event_type : String
deriving DecidableEq

/-- `df.sort_index()` order for recommendation rows (by full timestamp). -/
def recLe (a b : RecRow) : Prop :=
  a.date < b.date ∨ (a.date = b.date ∧ a.time ≤ b.time)

instance : DecidableRel recLe := fun a b =>
  inferInstanceAs (Decidable (a.date < b.date ∨ (a.date = b.date ∧ a.time ≤ b.time)))

instance : IsTotal RecRow recLe := ⟨by
  intro a b
  rcases Int.lt_trichotomy a.date b.date with h | h | h
  · exact Or.inl (Or.inl h)
  · rcases Int.le_total a.time b.time with ht | ht
    · exact Or.inl (Or.inr ⟨h, ht⟩)
    · exact Or.inr (Or.inr ⟨h.symm, ht⟩)
  · exact Or.inr (Or.inl h)⟩

instance : IsTrans RecRow recLe := ⟨by
  intro a b c hab hbc
  rcases hab with h₁ | ⟨e₁, t₁⟩
  · rcases hbc with h₂ | ⟨e₂, _⟩
    · exact Or.inl (Int.lt_trans h₁ h₂)
    · exact Or.inl (e₂ ▸ h₁)
  · rcases hbc with h₂ | ⟨e₂, t₂⟩
    · exact Or.inl (e₁ ▸ h₂)
    · exact Or.inr ⟨e₁.trans e₂, Int.le_trans t₁ t₂⟩⟩

/-- The `groupby(['event_date', 'firm'])` key of a (firm-upper-cased) row. -/
def keyOf (r : RecRow) : Int × String := (r.date, r.firm)

/-- pandas sorts group keys ascending: lexicographic on (event_date, firm). -/
def keyLe (a b : Int × String) : Prop :=
  a.1 < b.1 ∨ (a.1 = b.1 ∧ a.2 ≤ b.2)

instance : DecidableRel keyLe := fun a b =>
  inferInstanceAs (Decidable (a.1 < b.1 ∨ (a.1 = b.1 ∧ a.2 ≤ b.2)))

instance : IsTotal (Int × String) keyLe := ⟨by
  intro a b
  rcases Int.lt_trichotomy a.1 b.1 with h | h | h
  · exact Or.inl (Or.inl h)
  · rcases le_total a.2 b.2 with ht | ht
    · exact Or.inl (Or.inr ⟨h, ht⟩)
    · exact Or.inr (Or.inr ⟨h.symm, ht⟩)
  · exact Or.inr (Or.inl h)⟩

instance : IsTrans (Int × String) keyLe := ⟨by
  intro a b c hab hbc
  rcases hab with h₁ | ⟨e₁, t₁⟩
  · rcases hbc with h₂ | ⟨e₂, _⟩
    · exact Or.inl (Int.lt_trans h₁ h₂)
    · exact Or.inl (e₂ ▸ h₁)
  · rcases hbc with h₂ | ⟨e₂, t₂⟩
    · exact Or.inl (e₁ ▸ h₂)
    · exact Or.inr ⟨e₁.trans e₂, le_trans t₁ t₂⟩⟩

/-- Whether `pat` is an initial segment of `s` (character lists). -/
def charsPre : List Char → List Char → Bool
  | [], _ => true
  | _ :: _, [] => false
  | p :: ps, c :: cs => p = c && charsPre ps cs

/-- Whether `pat` occurs as a contiguous segment of `s` (character lists). -/
def charsContain (pat : List Char) : List Char → Bool
  | [] => pat.isEmpty
  | c :: rest => charsPre pat (c :: rest) || charsContain pat rest

/-- `series.str.contains(pat)` for a plain (non-regex-operator) pattern:
substring containment. -/
def strContains (s pat : String) : Bool :=
  charsContain pat.data s.data

/-- The `'up|down'` regex filter of step 4.1 of `mk_event_df`. -/
def actionMatches (a : String) : Bool :=
  strContains a "up" || strContains a "down"

/-- The inner `_mk_et` of `mk_event_df`: maps an action to an event type and
raises (here: `Except.error` carrying the offending value) otherwise. -/
def mk_et (value : String) : Except String String :=
  if value = "down" then .ok "downgrade"
  else if value = "up" then .ok "upgrade"
  else .error value

/-- `series.apply(f)` where `f` may raise: evaluates rows in order and
propagates the first exception. -/
def mapEx {α β : Type} (g : α → Except String β) : List α → Except String (List β)
  | [] => .ok []
  | x :: xs =>
    match g x with
    | .error e => .error e
    | .ok y =>
      match mapEx g xs with
      | .error e => .error e
      | .ok ys => .ok (y :: ys)

/-- Step 2 of `mk_event_df`: upper-case the firm column. -/
def prepRows (rows : List RecRow) : List RecRow :=
  rows.map (fun r => { r with firm := upperStr r.firm })

/-- The time-sorted, firm-upper-cased recommendation rows (steps 2–3 before
grouping: `df.sort_index()` after the firm/event_date columns are made). -/
def sortedRows (rows : List RecRow) : List RecRow :=
  List.insertionSort recLe (prepRows rows)

/-- The sorted distinct `(event_date, firm)` group keys, as pandas `groupby`
produces them (keys sorted ascending). -/
def groupKeys (rows : List RecRow) : List (Int × String) :=
  List.insertionSort keyLe (((sortedRows rows).map keyOf).dedup)

/-- Step 3 of `mk_event_df`: `groupby(['event_date','firm']).last()` — for
each group key, the last row of that group in timestamp order. -/
def groupLast (rows : List RecRow) : List RecRow :=
  (groupKeys rows).filterMap
    (fun k => ((sortedRows rows).filter (fun r => keyOf r = k)).getLast?)

/-- Step 4.1 of `mk_event_df`: rows whose action matches `'up|down'`. -/
def survivors (rows : List RecRow) : List RecRow :=
  (groupLast rows).filter (fun r => actionMatches r.action)

/-- `event_id = 1, 2, …` index assignment (`reset_index` then `index + 1`). -/
def idsFrom {α : Type} (n : Nat) : List α → List (Nat × α)
  | [] => []
  | x :: xs => (n, x) :: idsFrom (n + 1) xs

/-- `mk_events.mk_event_df`, with the CSV read abstracted out: `rows` is the
parsed recommendation file.  Returns the event table as `(event_id, Event)`
pairs, or the error raised by `_mk_et`. -/
def mk_event_df (rows : List RecRow) : Except String (List (Nat × Event)) :=
  match mapEx (fun r => (mk_et r.action).map (fun et => Event.mk r.firm r.date et))
      (survivors rows) with
  | .error e => .error e
  | .ok events => .ok (idsFrom 1 events)

/-! ## `mk_cars.expand_dates`, `mk_cars.calc_car`, `mk_cars.mk_cars_df` -/

/-- A row of the frame produced by `expand_dates` (its four retained
columns). -/
structure ExpRow where
  firm : String
  event_date : Int
  event_time : Int
  ret_date : Int
deriving DecidableEq

/-- `mk_cars.expand_dates`: one row per offset in `range(-window, window+1)`,
with `ret_date = event_date + event_time` calendar days. -/
def expand_dates (ser : Event) (window : Nat := 2) : List ExpRow :=
  (List.range (2 * window + 1)).map (fun (i : Nat) =>
    { firm := ser.firm
      event_date := ser.event_date
      event_time := (i : Int) - (window : Int)
      ret_date := ser.event_date + ((i : Int) - (window : Int)) })

/-- The inner join of step 4.2 of `calc_car`: the expanded candidate rows,
re-indexed by `ret_date`, joined against `ret_df` on its date index (left
order, every matching right row). -/
def matchedRows (ser : Event) (ret_df : List RetRow) (window : Nat := 2) :
    List (ExpRow × RetRow) :=
  (expand_dates ser window).flatMap (fun d =>
    (ret_df.filter (fun r => r.date = d.ret_date)).map (fun r => (d, r)))

/-- Step 4.3 of `calc_car`: the `aret = ret - mkt` column (NaN-propagating). -/
def aret (r : RetRow) : Option ℚ :=
  match r.ret, r.mkt with
  | some x, some y => some (x - y)
  | _, _ => none

/-- `mk_cars.calc_car`: expand the window, join the returns, sum the abnormal
returns; `np.nan` (here `none`) if the join is empty.  pandas `Series.sum`
skips NaN entries, hence the `filterMap id`. -/
def calc_car (ser : Event) (ret_df : List RetRow) (window : Nat := 2) : Option ℚ :=
  let df := matchedRows ser ret_df window
  if df.length = 0 then none
  else some (((df.map (fun p => aret p.2)).filterMap id).sum)

/-- The pandas object a caller's `event_df` variable points to: the event rows
plus, once assigned, the `car` column (`carCol = none` models the column being
absent). -/
structure EventObj where
  rows : List Event
  carCol : Option (List (Option ℚ))
deriving DecidableEq

/-- `mk_cars.mk_cars_df`.  The source computes
`cars = event_df.apply(calc_car, axis=1, ret_df=ret_df)`, then writes
`event_df.loc[:, 'car'] = cars` — an in-place column assignment on the frame
the caller passed — and returns that same frame.  The embedding returns the
triple `(returned frame, caller's event_df after the call, caller's ret_df
after the call)`; the first two components are the same object. -/
def mk_cars_df (ret_df : List RetRow) (event_df : EventObj) :
    EventObj × EventObj × List RetRow :=
  let cars := event_df.rows.map (fun e => calc_car e ret_df 2)
  let after : EventObj := { event_df with carCol := some cars }
  (after, after, ret_df)

/-! ## `test_hypo.calc_tstats` -/

/-- The two columns of the CAR table that `calc_tstats` consumes
(`groupby('event_type')['car']`). -/
structure CarRow where
  event_type : String
  car : Option ℚ
deriving DecidableEq

/-- Projection of a `mk_cars_df` result to the columns `calc_tstats` uses.
If the `car` column were absent the selection would fail; in the pipeline it
is always present. -/
def carsOf (o : EventObj) : List CarRow :=
  match o.carCol with
  | none => []
  | some cs => (o.rows.zip cs).map (fun p => CarRow.mk p.1.event_type p.2)

/-- A float value as produced by the `car_bar / car_sem` division: a finite
number, NaN, or a signed infinity.  Because the square root in the standard
error is not rational-valued, finite t statistics are carried in the
*signed-square* encoding: `num u` stands for the real t value `t` with
`u = t * |t|` (the map `t ↦ t * |t|` is a strictly monotone bijection of ℝ, so
definedness, sign and zero-ness are preserved exactly). -/
inductive FVal where
  | nan : FVal
  | inf : FVal
  | ninf : FVal
  | num : ℚ → FVal
deriving DecidableEq

/-- Whether an `FVal` is a finite number. -/
def FVal.isNum : FVal → Bool
  | .num _ => true
  | _ => false

/-- The `car` values of one `event_type` group, NaN entries included. -/
def groupCars (tbl : List CarRow) (t : String) : List (Option ℚ) :=
  (tbl.filter (fun r => r.event_type = t)).map (fun r => r.car)

/-- The non-NaN `car` values of one group: pandas `GroupBy.mean`, `.sem` and
`.count` all aggregate over exactly these. -/
def validCars (tbl : List CarRow) (t : String) : List ℚ :=
  (groupCars tbl t).filterMap id

/-- `groups.mean()`: NaN for a group with no valid observation. -/
def car_bar (tbl : List CarRow) (t : String) : Option ℚ :=
  let v := validCars tbl t
  if v.length = 0 then none else some (v.sum / (v.length : ℚ))

/-- The *square* of `groups.sem()` (standard error of the mean, sample
standard deviation with `ddof=1` divided by `√n`): NaN (`none`) for groups
with fewer than two valid observations, else `(Σ (x − mean)² / (n−1)) / n`.
The square is the faithful rational representative: `sem = √(car_semSq)`,
and `sem` is NaN, zero or positive exactly when `car_semSq` is. -/
def car_semSq (tbl : List CarRow) (t : String) : Option ℚ :=
  let v := validCars tbl t
  if v.length ≤ 1 then none
  else
    let m := v.sum / (v.length : ℚ)
    some (((v.map (fun x => (x - m) ^ 2)).sum / ((v.length : ℚ) - 1)) / (v.length : ℚ))

/-- `groups.count()`: the number of non-NaN observations in the group. -/
def n_obs (tbl : List CarRow) (t : String) : Nat :=
  (validCars tbl t).length

/-- The `car_t = car_bar / car_sem` float division (IEEE semantics: NaN if
either operand is NaN, signed infinity on division of a nonzero mean by a zero
standard error, NaN on 0/0), with finite quotients in the signed-square
encoding `t * |t| = mean * |mean| / sem²` described at `FVal`. -/
def car_t_val (bar semSq : Option ℚ) : FVal :=
  match bar, semSq with
  | some m, some s =>
    if s = 0 then
      (if m = 0 then FVal.nan else if 0 < m then FVal.inf else FVal.ninf)
    else FVal.num (m * |m| / s)
  | _, _ => FVal.nan

/-- A row of the result frame of `calc_tstats` (`car_bar`, `car_t`,
`n_obs`). -/
structure TRow where
  event_type : String
  car_bar : Option ℚ
  car_t : FVal
  n_obs : Nat
deriving DecidableEq

/-- `test_hypo.calc_tstats`: group the CAR table by `event_type` (group keys
sorted ascending, as pandas does) and compute mean, t statistic and
observation count per group.  Total: degenerate groups yield NaN statistics,
never an exception. -/
def calc_tstats (tbl : List CarRow) : List TRow :=
  (List.insertionSort (fun a b : String => a ≤ b)
      ((tbl.map (fun r => r.event_type)).dedup)).map
    (fun t => TRow.mk t (car_bar tbl t) (car_t_val (car_bar tbl t) (car_semSq tbl t))
      (n_obs tbl t))

/-! ## Helper lemmas -/

/-- The second component of any joined pair of `matchedRows` is a row of the
returns series. -/
theorem mem_matchedRows {ser : Event} {ret_df : List RetRow} {w : Nat}
    {p : ExpRow × RetRow} (hp : p ∈ matchedRows ser ret_df w) : p.2 ∈ ret_df := by
  simp only [matchedRows, List.mem_flatMap, List.mem_map, List.mem_filter] at hp
  obtain ⟨d, _, r, ⟨hr, _⟩, rfl⟩ := hp
  exact hr

/-- `getLast?` returns a member of the list. -/
theorem mem_of_getLast?_eq {α : Type} {l : List α} {a : α}
    (h : l.getLast? = some a) : a ∈ l := by
  cases l with
  | nil => simp at h
  | cons x xs =>
    have hne : x :: xs ≠ [] := by simp
    rw [List.getLast?_eq_getLast _ hne] at h
    obtain rfl : a = _ := (Option.some_inj.mp h).symm
    exact List.getLast_mem hne

/-! ## Claim theorems -/

/-- **C2** — `expand_dates` produces exactly `2·w+1` rows, the `n`-th carrying
`event_time = n − w` and `ret_date = event_date + (n − w)` calendar days
(calendar arithmetic on day numbers, not trading-day arithmetic), with firm
and event date copied from the event row; concretely, for window 2 and event
date 2012-02-16 the five ret_dates are 2012-02-14 … 2012-02-18 with
event_time −2 … 2. -/
theorem expand_dates_window :
    ∀ (e : Event) (w : Nat),
      (expand_dates e w).length = 2 * w + 1
      ∧ (∀ n : Nat, n < 2 * w + 1 →
          (expand_dates e w)[n]? =
            some ⟨e.firm, e.event_date, (n : Int) - (w : Int),
              e.event_date + ((n : Int) - (w : Int))⟩)
      ∧ (expand_dates ⟨"Wunderlich", daysFromCivil 2012 2 16, "upgrade"⟩ 2).map
            (fun r => (r.event_time, r.ret_date)) =
          [(-2, daysFromCivil 2012 2 14), (-1, daysFromCivil 2012 2 15),
           (0, daysFromCivil 2012 2 16), (1, daysFromCivil 2012 2 17),
           (2, daysFromCivil 2012 2 18)] := by
  intro e w
  refine ⟨by simp [expand_dates], ?_, by decide⟩
  intro n hn
  simp [expand_dates, List.getElem?_map, List.getElem?_range hn]

/-- Witness for `expand_dates_window` at window 2, offset 0 of the spec's
concrete event date. -/
theorem expand_dates_window_witness :
    (expand_dates ⟨"Wunderlich", daysFromCivil 2012 2 16, "upgrade"⟩ 2)[0]? =
      some ⟨"Wunderlich", daysFromCivil 2012 2 16, (0 : Int) - (2 : Int),
        daysFromCivil 2012 2 16 + ((0 : Int) - (2 : Int))⟩ :=
  (expand_dates_window ⟨"Wunderlich", daysFromCivil 2012 2 16, "upgrade"⟩ 2).2.1
    0 (by decide)

/-- **C3** — `calc_car` returns the "no data" sentinel (`np.nan`, here `none`)
exactly when the expanded window matches zero dates of the returns series; in
particular an empty join never yields `0.0`, so "no data" is distinguishable
from a zero CAR, and no error is raised (the function is total). -/
theorem calc_car_no_data :
    ∀ (ser : Event) (ret_df : List RetRow) (w : Nat),
      (calc_car ser ret_df w = none ↔ matchedRows ser ret_df w = [])
      ∧ (matchedRows ser ret_df w = [] → calc_car ser ret_df w ≠ some 0) := by
  intro e rdf w
  refine ⟨⟨?_, ?_⟩, ?_⟩
  · intro h
    by_cases hl : (matchedRows e rdf w).length = 0
    · exact List.length_eq_zero.mp hl
    · simp [calc_car, hl] at h
  · intro h
    simp [calc_car, h]
  · intro h
    simp [calc_car, h]

/-- Witness for `calc_car_no_data`: an event whose window matches nothing in
an empty returns series. -/
theorem calc_car_no_data_witness :
    calc_car ⟨"A", 0, "upgrade"⟩ [] 2 = none
    ∧ calc_car ⟨"A", 0, "upgrade"⟩ [] 2 ≠ some 0 :=
  ⟨(calc_car_no_data ⟨"A", 0, "upgrade"⟩ [] 2).1.mpr (by decide),
   (calc_car_no_data ⟨"A", 0, "upgrade"⟩ [] 2).2 (by decide)⟩

/-- **C8**, counterexample — two distinct labels that both change under
normalization ("CLOSE" and "Close" both normalize to "close", which is not
itself an original label) are **both** renamed to the same name: the output
contains two identical column labels, refuting the claim that the collision
is always resolved by prefixing one of them with `_`. -/
theorem standardise_colnames_collision_cex :
    (standardise_colnames [("CLOSE", (0 : Nat)), ("Close", 1)]).map Prod.fst =
        ["close", "close"]
    ∧ ¬ ((standardise_colnames [("CLOSE", (0 : Nat)), ("Close", 1)]).map Prod.fst).Nodup
    ∧ "CLOSE" ≠ "Close" := by
  exact ⟨by decide, by decide, by decide⟩

/-- **C8**, amended — when two distinct column labels normalize to the same
name **and one of the two is already in normalized form** (the case the
source's collision policy covers: the normalized name exists verbatim among
the original labels), the other label is prefixed with `_`, the two output
labels differ, and no column's data is dropped or altered by the rename;
when neither label is already normalized, both receive the same normalized
name (see the counterexample). -/
theorem standardise_colnames_amended :
    ∀ {α : Type} (tbl : List (String × α)) (a b : String),
      a ∈ tbl.map Prod.fst → b ∈ tbl.map Prod.fst → a ≠ b →
      normalise_name a = b → normalise_name b = b →
      parse_name (tbl.map Prod.fst) a = "_" ++ b
      ∧ parse_name (tbl.map Prod.fst) b = b
      ∧ "_" ++ b ≠ b
      ∧ (standardise_colnames tbl).map Prod.snd = tbl.map Prod.snd
      ∧ (standardise_colnames tbl).length = tbl.length := by
  intro α tbl a b _ hb hab hna hnb
  refine ⟨?_, ?_, ?_, ?_, ?_⟩
  · unfold parse_name
    rw [hna, if_neg (fun h => hab h.symm), if_pos hb]
  · unfold parse_name
    rw [hnb, if_pos rfl]
  · intro h
    have hlen := congrArg String.length h
    rw [String.length_append] at hlen
    have h1 : "_".length = 1 := rfl
    omega
  · simp [standardise_colnames]
  · simp [standardise_colnames]

/-- Witness for `standardise_colnames_amended`: "Close" collides with the
already-normalized label "close" and is prefixed. -/
theorem standardise_colnames_amended_witness :
    parse_name ["Close", "close"] "Close" = "_" ++ "close"
    ∧ parse_name ["Close", "close"] "close" = "close" :=
  ⟨(standardise_colnames_amended [("Close", (0 : Nat)), ("close", 1)] "Close" "close"
      (by decide) (by decide) (by decide) (by decide) (by decide)).1,
   (standardise_colnames_amended [("Close", (0 : Nat)), ("close", 1)] "Close" "close"
      (by decide) (by decide) (by decide) (by decide) (by decide)).2.1⟩

/-- **C9**, counterexample — `mk_cars_df` does **not** leave the event table
it is passed unchanged: `event_df.loc[:, 'car'] = cars` writes the `car`
column into the caller's frame in place, so after the call the caller's
`event_df` differs from the value passed in. -/
theorem mk_cars_df_mutates_cex :
    (mk_cars_df [] ⟨[⟨"A", 0, "upgrade"⟩], none⟩).2.1 ≠
      ⟨[⟨"A", 0, "upgrade"⟩], none⟩ := by
  decide

/-- **C9**, amended — `mk_cars_df` leaves the returns series unchanged and
returns the event table augmented with a `car` column holding `calc_car` of
each event (window 2), but the returned frame **is** the caller's mutated
`event_df` (same object), not a fresh table. -/
theorem mk_cars_df_effects :
    ∀ (ret_df : List RetRow) (event_df : EventObj),
      (mk_cars_df ret_df event_df).2.2 = ret_df
      ∧ (mk_cars_df ret_df event_df).2.1 = (mk_cars_df ret_df event_df).1
      ∧ (mk_cars_df ret_df event_df).1.rows = event_df.rows
      ∧ (mk_cars_df ret_df event_df).1.carCol =
          some (event_df.rows.map (fun e => calc_car e ret_df 2)) := by
  intro r e
  exact ⟨rfl, rfl, rfl, rfl⟩

/-- pandas `Series.sum` of the `aret` column skips NaN entries; when the
returns series has no missing values the skipping sum equals the plain sum of
`stock return − market return` over the joined rows. -/
theorem sum_aret_eq_sum_sub :
    ∀ (l : List (ExpRow × RetRow)),
      (∀ p ∈ l, p.2.ret ≠ none ∧ p.2.mkt ≠ none) →
      ((l.map (fun p => aret p.2)).filterMap id).sum =
        (l.map (fun p => p.2.ret.getD 0 - p.2.mkt.getD 0)).sum := by
  intro l
  induction l with
  | nil => intro _; rfl
  | cons p rest ih =>
    intro h
    obtain ⟨hr, hm⟩ := h p (List.mem_cons_self p rest)
    obtain ⟨x, hx⟩ := Option.ne_none_iff_exists'.mp hr
    obtain ⟨y, hy⟩ := Option.ne_none_iff_exists'.mp hm
    have haret : aret p.2 = some (x - y) := by simp [aret, hx, hy]
    simp only [List.map_cons, haret, List.filterMap_cons, id, List.sum_cons, hx, hy,
      Option.getD_some]
    rw [ih (fun q hq => h q (List.mem_cons_of_mem p hq))]

/-- **C1** — for every event row and returns series without missing values,
`calc_car` inner-joins the expanded candidate dates against the series on
date, computes `abnormal_return = stock_return − market_return` per matched
row and sums over all matched rows; concretely, if exactly one date matches
with stock return 0.02 and market return 0.01 the CAR is 0.01. -/
theorem calc_car_inner_join_sum :
    ∀ (ser : Event) (ret_df : List RetRow) (w : Nat),
      (∀ r ∈ ret_df, r.ret ≠ none ∧ r.mkt ≠ none) →
      (matchedRows ser ret_df w ≠ [] →
        calc_car ser ret_df w =
          some (((matchedRows ser ret_df w).map
            (fun p => p.2.ret.getD 0 - p.2.mkt.getD 0)).sum))
      ∧ calc_car ⟨"A", 0, "upgrade"⟩
          [⟨0, some (1/50), some (1/100)⟩] 2 = some (1/100) := by
  intro e rdf w h
  constructor
  · intro hne
    have hl : ¬ (matchedRows e rdf w).length = 0 := by
      simpa [List.length_eq_zero] using hne
    simp only [calc_car, if_neg hl]
    congr 1
    exact sum_aret_eq_sum_sub _ (fun p hp => h p.2 (mem_matchedRows hp))
  · norm_num [calc_car, matchedRows, expand_dates, aret, List.range_succ,
      List.filterMap_cons, List.filterMap_nil]

/-- Witness for `calc_car_inner_join_sum`: the spec's concrete single-match
window. -/
theorem calc_car_inner_join_sum_witness :
    calc_car ⟨"A", 0, "upgrade"⟩ [⟨0, some (1/50), some (1/100)⟩] 2 = some (1/100) :=
  (calc_car_inner_join_sum ⟨"A", 0, "upgrade"⟩
    [⟨0, some (1/50), some (1/100)⟩] 2 (by decide)).2

/-- **C7** — for every CAR table, every event type present appears in the
`calc_tstats` output with its group mean and observation count; a group with
exactly one (valid) observation gets a NaN t statistic, and a group whose
standard error is zero gets a non-finite t statistic (±∞ or NaN) — in every
case a representable value, never an exception (`calc_tstats` is total). -/
theorem calc_tstats_degenerate :
    ∀ (tbl : List CarRow) (t : String),
      t ∈ tbl.map (fun r => r.event_type) →
      ∃ row ∈ calc_tstats tbl,
        row.event_type = t
        ∧ row.car_bar = car_bar tbl t
        ∧ row.n_obs = n_obs tbl t
        ∧ (n_obs tbl t = 1 → row.car_t = FVal.nan)
        ∧ (car_semSq tbl t = some 0 → row.car_t.isNum = false) := by
  intro tbl t ht
  refine ⟨⟨t, car_bar tbl t, car_t_val (car_bar tbl t) (car_semSq tbl t), n_obs tbl t⟩,
    ?_, rfl, rfl, rfl, ?_, ?_⟩
  · exact List.mem_map_of_mem _
      ((List.mem_insertionSort _).mpr (List.mem_dedup.mpr ht))
  · intro h1
    have hle : (validCars tbl t).length ≤ 1 := by
      unfold n_obs at h1; omega
    have hsem : car_semSq tbl t = none := by
      simp [car_semSq, hle]
    show car_t_val (car_bar tbl t) (car_semSq tbl t) = FVal.nan
    rw [hsem]
    cases car_bar tbl t <;> rfl
  · intro h0
    have hlen : ¬ (validCars tbl t).length ≤ 1 := by
      intro hle
      simp [car_semSq, hle] at h0
    have hlen0 : ¬ (validCars tbl t).length = 0 := by omega
    have hbar : car_bar tbl t =
        some ((validCars tbl t).sum / ((validCars tbl t).length : ℚ)) := by
      simp [car_bar, hlen0]
    show (car_t_val (car_bar tbl t) (car_semSq tbl t)).isNum = false
    rw [hbar, h0]
    simp only [car_t_val, if_pos rfl]
    by_cases hm : (validCars tbl t).sum / ((validCars tbl t).length : ℚ) = 0
    · simp [hm, FVal.isNum]
    · by_cases hp : 0 < (validCars tbl t).sum / ((validCars tbl t).length : ℚ) <;>
        simp [hm, hp, FVal.isNum]

/-- Witness for `calc_tstats_degenerate`: a singleton "upgrade" group. -/
theorem calc_tstats_degenerate_witness :
    ∃ row ∈ calc_tstats [⟨"upgrade", some (1/50)⟩],
      row.event_type = "upgrade"
      ∧ row.car_bar = car_bar [⟨"upgrade", some (1/50)⟩] "upgrade"
      ∧ row.n_obs = n_obs [⟨"upgrade", some (1/50)⟩] "upgrade"
      ∧ (n_obs [⟨"upgrade", some (1/50)⟩] "upgrade" = 1 → row.car_t = FVal.nan)
      ∧ (car_semSq [⟨"upgrade", some (1/50)⟩] "upgrade" = some 0 →
          row.car_t.isNum = false) :=
  calc_tstats_degenerate [⟨"upgrade", some (1/50)⟩] "upgrade" (by decide)

/-- The valid (non-NaN) car values of a group are unchanged when the NaN-car
rows are dropped from the table beforehand. -/
theorem validCars_filter_isSome :
    ∀ (tbl : List CarRow) (t : String),
      validCars (tbl.filter (fun r => r.car.isSome)) t = validCars tbl t := by
  intro tbl t
  induction tbl with
  | nil => rfl
  | cons r rest ih =>
    cases hc : r.car with
    | none =>
      by_cases ht : r.event_type = t <;>
        simp [validCars, groupCars, List.filter_cons, hc, ht] <;>
        simpa [validCars, groupCars] using ih
    | some q =>
      by_cases ht : r.event_type = t <;>
        simp [validCars, groupCars, List.filter_cons, hc, ht] <;>
        simpa [validCars, groupCars] using ih

/-- `groups.count()` counts exactly the rows of the group whose car is not
NaN. -/
theorem n_obs_counts_nonmissing :
    ∀ (tbl : List CarRow) (t : String),
      n_obs tbl t = (tbl.filter (fun r => r.event_type = t ∧ r.car.isSome)).length := by
  intro tbl t
  induction tbl with
  | nil => rfl
  | cons r rest ih =>
    cases hc : r.car with
    | none =>
      by_cases ht : r.event_type = t <;>
        simp [n_obs, validCars, groupCars, List.filter_cons, hc, ht] <;>
        simpa [n_obs, validCars, groupCars] using ih
    | some q =>
      by_cases ht : r.event_type = t <;>
        simp [n_obs, validCars, groupCars, List.filter_cons, hc, ht] <;>
        simpa [n_obs, validCars, groupCars] using ih

/-- `(rows, rows.map f)` zipped and projected to `(event_type, car)` rows. -/
theorem zip_map_cars :
    ∀ (rows : List Event) (f : Event → Option ℚ),
      (rows.zip (rows.map f)).map (fun p => CarRow.mk p.1.event_type p.2) =
        rows.map (fun e => CarRow.mk e.event_type (f e)) := by
  intro rows f
  induction rows with
  | nil => rfl
  | cons e rest ih => simp [ih]

/-- **C10** — `calc_tstats` silently excludes NaN car values from every
per-group aggregate: mean, (squared) standard error and `n_obs` are invariant
under dropping the NaN-car rows beforehand, and `n_obs` counts only the
non-missing cars of the group; meanwhile the orchestrator's CAR table
(`mk_cars_df` output) carries one unfiltered row per event, sentinel cars
included. -/
theorem calc_tstats_skipna :
    (∀ (tbl : List CarRow) (t : String),
        car_bar (tbl.filter (fun r => r.car.isSome)) t = car_bar tbl t
        ∧ car_semSq (tbl.filter (fun r => r.car.isSome)) t = car_semSq tbl t
        ∧ n_obs (tbl.filter (fun r => r.car.isSome)) t = n_obs tbl t
        ∧ n_obs tbl t =
            (tbl.filter (fun r => r.event_type = t ∧ r.car.isSome)).length)
    ∧ (∀ (ret_df : List RetRow) (ev : EventObj),
        carsOf (mk_cars_df ret_df ev).1 =
          ev.rows.map (fun e => CarRow.mk e.event_type (calc_car e ret_df 2))) := by
  constructor
  · intro tbl t
    have hv := validCars_filter_isSome tbl t
    exact ⟨by simp [car_bar, hv], by simp [car_semSq, hv], by simp [n_obs, hv],
      n_obs_counts_nonmissing tbl t⟩
  · intro rdf ev
    simp only [carsOf, mk_cars_df]
    exact zip_map_cars ev.rows _

/-- `pct_change` pairing keeps the price rows themselves unchanged. -/
theorem addRets_map_fst :
    ∀ (o : Option ℚ) (l : List PrcRow), (addRets o l).map Prod.fst = l := by
  intro o l
  induction l generalizing o with
  | nil => rfl
  | cons p rest ih => simp [addRets, ih]

/-- Every row after the first has a prior close, hence a present return. -/
theorem addRets_tail_ret_ne_none :
    ∀ (c : ℚ) (l : List PrcRow) (p : PrcRow × Option ℚ),
      p ∈ addRets (some c) l → p.2 ≠ none := by
  intro c l
  induction l generalizing c with
  | nil => intro p hp; cases hp
  | cons q rest ih =>
    intro p hp
    rcases List.mem_cons.mp hp with rfl | hp'
    · simp [addRets]
    · exact ih q.close p hp'

/-- **C5** — the output of `mk_ret_df` has no missing stock or market return;
its dates are a subset of the intersection of the price dates and the
market-factor dates; and the first trading day (a price date that is the
strict minimum of the source window, hence has no prior close) never appears
in the output. -/
theorem mk_ret_df_clean :
    ∀ (prc : List PrcRow) (ff : List FFRow),
      (∀ r ∈ mk_ret_df prc ff, r.ret ≠ none ∧ r.mkt ≠ none)
      ∧ (∀ r ∈ mk_ret_df prc ff,
          r.date ∈ prc.map (fun p => p.date) ∧ r.date ∈ ff.map (fun f => f.date))
      ∧ (∀ d : Int,
          (prc.filter (fun p => p.date = d)).length = 1 →
          (∀ p ∈ prc, d ≤ p.date) →
          ∀ r ∈ mk_ret_df prc ff, r.date ≠ d) := by
  intro prc ff
  refine ⟨?_, ?_, ?_⟩
  · intro r hr
    have hpred := (List.mem_filter.mp hr).2
    simp only [Bool.and_eq_true, Option.isSome_iff_ne_none] at hpred
    exact hpred
  · intro r hr
    have hj := (List.mem_filter.mp hr).1
    simp only [mk_ret_df, List.mem_flatMap, List.mem_map, List.mem_filter,
      decide_eq_true_eq] at hj
    obtain ⟨pr, hpr, f, ⟨hf, hfd⟩, rfl⟩ := hj
    constructor
    · have h1 : pr.1 ∈ (addRets none (List.insertionSort prcLe prc)).map Prod.fst :=
        List.mem_map_of_mem _ hpr
      rw [addRets_map_fst] at h1
      exact List.mem_map_of_mem _ ((List.mem_insertionSort _).mp h1)
    · have : f.date ∈ ff.map (fun f => f.date) := List.mem_map_of_mem _ hf
      rw [hfd] at this
      exact this
  · intro d hcount hmin r hr hrd
    have hperm := List.perm_insertionSort prcLe prc
    have hfil : ((List.insertionSort prcLe prc).filter
        (fun p => p.date = d)).length = 1 := by
      rw [(hperm.filter _).length_eq, hcount]
    cases hs : List.insertionSort prcLe prc with
    | nil => rw [hs] at hfil; simp at hfil
    | cons h0 tail =>
      have hsort := List.sorted_insertionSort prcLe prc
      rw [hs] at hsort hfil
      have hpair := (List.sorted_cons.mp hsort).1
      have hh0 : h0 ∈ prc := hperm.mem_iff.mp (hs ▸ List.mem_cons_self h0 tail)
      have hdle : d ≤ h0.date := hmin h0 hh0
      -- the strict-minimum date is the head's date, and only the head's
      have hd0 : h0.date = d := by
        by_contra hne
        rw [List.filter_cons_of_neg (by simpa using hne)] at hfil
        obtain ⟨x, hx⟩ := List.exists_mem_of_length_pos
          (by omega : 0 < (tail.filter (fun p => decide (p.date = d))).length)
        have hxt := List.mem_filter.mp hx
        have hxd : x.date = d := by simpa using hxt.2
        have : h0.date ≤ x.date := hpair x hxt.1
        omega
      have htail : ∀ x ∈ tail, x.date ≠ d := by
        rw [List.filter_cons_of_pos (by simpa using hd0)] at hfil
        have h0len : (tail.filter (fun p => decide (p.date = d))).length = 0 := by
          simpa using hfil
        intro x hx hxd
        have : x ∈ tail.filter (fun p => decide (p.date = d)) :=
          List.mem_filter.mpr ⟨hx, by simpa using hxd⟩
        rw [List.length_eq_zero.mp h0len] at this
        cases this
      -- now decompose the output row
      have hpred := (List.mem_filter.mp hr).2
      have hj := (List.mem_filter.mp hr).1
      simp only [mk_ret_df, List.mem_flatMap, List.mem_map, List.mem_filter,
        decide_eq_true_eq] at hj
      obtain ⟨pr, hpr, f, ⟨hf, hfd⟩, rfl⟩ := hj
      rw [hs] at hpr
      have hprdate : pr.1.date = d := hrd
      rcases List.mem_cons.mp hpr with rfl | hpr'
      · -- the head pair: its return is NaN, contradicting the dropna filter
        simp only [Bool.and_eq_true, Option.isSome_iff_ne_none] at hpred
        exact hpred.1 rfl
      · -- a tail pair: its price date cannot be the minimum date
        have h1 : pr.1 ∈ (addRets (some h0.close) tail).map Prod.fst :=
          List.mem_map_of_mem _ hpr'
        rw [addRets_map_fst] at h1
        exact htail pr.1 h1 hprdate

/-- Witness for `mk_ret_df_clean`: with prices on days 0 and 1 and market
factors on both days, day 0 (the first trading day) never reaches the
output. -/
theorem mk_ret_df_clean_witness :
    ¬ (∃ r ∈ mk_ret_df [⟨1, 11⟩, ⟨0, 10⟩] [⟨0, some 0⟩, ⟨1, some (1/10)⟩],
        r.date = 0) := by
  rintro ⟨r, hr, hd⟩
  exact (mk_ret_df_clean [⟨1, 11⟩, ⟨0, 10⟩] [⟨0, some 0⟩, ⟨1, some (1/10)⟩]).2.2
    0 (by decide) (by decide) r hr hd

/-- A successful `mapEx` run relates input and output pointwise. -/
theorem mapEx_ok_forall₂ {α β : Type} (g : α → Except String β) :
    ∀ (l : List α) (ys : List β), mapEx g l = .ok ys →
      List.Forall₂ (fun x y => g x = .ok y) l ys := by
  intro l
  induction l with
  | nil =>
    intro ys h
    simp only [mapEx] at h
    cases h
    exact List.Forall₂.nil
  | cons x xs ih =>
    intro ys h
    simp only [mapEx] at h
    cases hx : g x with
    | error e => rw [hx] at h; simp at h
    | ok y =>
      rw [hx] at h
      cases hxs : mapEx g xs with
      | error e => rw [hxs] at h; simp at h
      | ok ys' =>
        rw [hxs] at h
        have h' : y :: ys' = ys := by simpa using h
        subst h'
        exact List.Forall₂.cons hx (ih ys' hxs)

/-- Every element of the right list of a `Forall₂` is related to some element
of the left list. -/
theorem forall₂_mem_right {α β : Type} {R : α → β → Prop} :
    ∀ {l₁ : List α} {l₂ : List β}, List.Forall₂ R l₁ l₂ →
      ∀ y ∈ l₂, ∃ x ∈ l₁, R x y := by
  intro l₁ l₂ h
  induction h with
  | nil => intro y hy; cases hy
  | cons hR _ ih =>
    intro y hy
    rcases List.mem_cons.mp hy with rfl | hy'
    · exact ⟨_, List.mem_cons_self _ _, hR⟩
    · obtain ⟨x, hx, hR'⟩ := ih y hy'
      exact ⟨x, List.mem_cons_of_mem _ hx, hR'⟩

/-- Every element of the left list of a `Forall₂` is related to some element
of the right list. -/
theorem forall₂_mem_left {α β : Type} {R : α → β → Prop} :
    ∀ {l₁ : List α} {l₂ : List β}, List.Forall₂ R l₁ l₂ →
      ∀ x ∈ l₁, ∃ y ∈ l₂, R x y := by
  intro l₁ l₂ h
  induction h with
  | nil => intro x hx; cases hx
  | cons hR _ ih =>
    intro x hx
    rcases List.mem_cons.mp hx with rfl | hx'
    · exact ⟨_, List.mem_cons_self _ _, hR⟩
    · obtain ⟨y, hy, hR'⟩ := ih x hx'
      exact ⟨y, List.mem_cons_of_mem _ hy, hR'⟩

/-- Maps that agree across a `Forall₂` produce equal lists. -/
theorem forall₂_map_eq {α β γ : Type} {R : α → β → Prop} (f : α → γ) (g : β → γ) :
    ∀ {l₁ : List α} {l₂ : List β}, List.Forall₂ R l₁ l₂ →
      (∀ x y, R x y → f x = g y) → l₁.map f = l₂.map g := by
  intro l₁ l₂ h hfg
  induction h with
  | nil => rfl
  | cons hR _ ih => simp [hfg _ _ hR, ih]

/-- `idsFrom` preserves length. -/
theorem idsFrom_length {α : Type} :
    ∀ (n : Nat) (l : List α), (idsFrom n l).length = l.length := by
  intro n l
  induction l generalizing n with
  | nil => rfl
  | cons x xs ih => simp [idsFrom, ih]

/-- The assigned ids are consecutive integers starting at `n`. -/
theorem idsFrom_map_fst {α : Type} :
    ∀ (n : Nat) (l : List α), (idsFrom n l).map Prod.fst = List.range' n l.length := by
  intro n l
  induction l generalizing n with
  | nil => rfl
  | cons x xs ih => simp [idsFrom, List.range', ih]

/-- `idsFrom` only decorates; the underlying rows are unchanged. -/
theorem idsFrom_map_snd {α : Type} :
    ∀ (n : Nat) (l : List α), (idsFrom n l).map Prod.snd = l := by
  intro n l
  induction l generalizing n with
  | nil => rfl
  | cons x xs ih => simp [idsFrom, ih]

/-- A decorated pair's row is a row of the original list. -/
theorem mem_idsFrom_snd {α : Type} {p : Nat × α} :
    ∀ (n : Nat) (l : List α), p ∈ idsFrom n l → p.2 ∈ l := by
  intro n l hp
  have h := List.mem_map_of_mem Prod.snd hp
  rw [idsFrom_map_snd] at h
  exact h

/-- Filtering on the row part commutes with id decoration. -/
theorem idsFrom_filter_length {α : Type} (P : α → Bool) :
    ∀ (n : Nat) (l : List α),
      ((idsFrom n l).filter (fun p => P p.2)).length = (l.filter P).length := by
  intro n l
  induction l generalizing n with
  | nil => rfl
  | cons x xs ih =>
    by_cases hP : P x <;> simp [idsFrom, List.filter_cons, hP, ih]

/-- If a partial choice function returns rows carrying their own key, distinct
keys yield rows with distinct keys. -/
theorem nodup_map_key_filterMap {κ ρ : Type} (keyFn : ρ → κ) :
    ∀ (ks : List κ) (f : κ → Option ρ), ks.Nodup →
      (∀ k r, f k = some r → keyFn r = k) →
      ((ks.filterMap f).map keyFn).Nodup := by
  intro ks
  induction ks with
  | nil => intro f _ _; simp
  | cons k ks ih =>
    intro f hnd hf
    obtain ⟨hk, hnd'⟩ := List.nodup_cons.mp hnd
    cases hfk : f k with
    | none => simpa [List.filterMap_cons, hfk] using ih f hnd' hf
    | some r =>
      simp only [List.filterMap_cons, hfk, List.map_cons]
      rw [List.nodup_cons]
      refine ⟨?_, ih f hnd' hf⟩
      intro hmem
      obtain ⟨r', hr', hkey⟩ := List.mem_map.mp hmem
      obtain ⟨k', hk', hfk'⟩ := List.mem_filterMap.mp hr'
      rw [hf k' r' hfk'] at hkey
      rw [hf k r hfk] at hkey
      exact hk (hkey ▸ hk')

/-- In a list whose image under `f` has no duplicates, at most one element
maps to any given key. -/
theorem filter_len_le_one_of_nodup_map {α κ : Type} [DecidableEq κ] (f : α → κ) :
    ∀ (l : List α), (l.map f).Nodup →
      ∀ k, (l.filter (fun x => f x = k)).length ≤ 1 := by
  intro l
  induction l with
  | nil => intro _ k; simp
  | cons x xs ih =>
    intro hnd k
    have hnd2 : (f x :: xs.map f).Nodup := by
      rw [← List.map_cons]; exact hnd
    obtain ⟨hx, hnd'⟩ := List.nodup_cons.mp hnd2
    by_cases hfx : f x = k
    · rw [List.filter_cons_of_pos (by simpa using hfx)]
      have h0 : (xs.filter (fun y => decide (f y = k))).length = 0 := by
        rw [List.length_eq_zero, List.filter_eq_nil_iff]
        intro y hy hyk
        apply hx
        have hfy : f y = f x := by
          have h1 : f y = k := by simpa using hyk
          rw [h1, hfx]
        exact hfy ▸ List.mem_map_of_mem f hy
      simp [h0]
    · rw [List.filter_cons_of_neg (by simpa using hfx)]
      exact ih hnd' k

/-- Each row produced by the `groupby(...).last()` step is the last row of its
own `(event_date, firm)` group in the time-sorted table. -/
theorem groupLast_mem_key :
    ∀ (rows : List RecRow) (r : RecRow), r ∈ groupLast rows →
      ((sortedRows rows).filter (fun x => keyOf x = keyOf r)).getLast? = some r := by
  intro rows r hr
  obtain ⟨k, _, hfk⟩ := List.mem_filterMap.mp hr
  have hrk : keyOf r = k := by
    have hmem := mem_of_getLast?_eq hfk
    simpa using (List.mem_filter.mp hmem).2
  rw [hrk]
  exact hfk

/-- The rows surviving `groupby(...).last()` have pairwise distinct group
keys. -/
theorem groupLast_keys_nodup (rows : List RecRow) :
    ((groupLast rows).map keyOf).Nodup := by
  apply nodup_map_key_filterMap keyOf
  · exact (List.perm_insertionSort keyLe _).nodup_iff.mpr
      (List.nodup_dedup _)
  · intro k r hf
    have hmem := mem_of_getLast?_eq hf
    simpa using (List.mem_filter.mp hmem).2

/-- The action-filtered survivors still have pairwise distinct group keys. -/
theorem survivors_keys_nodup (rows : List RecRow) :
    ((survivors rows).map keyOf).Nodup :=
  List.Nodup.sublist
    (List.Sublist.map keyOf (List.filter_sublist (groupLast rows)))
    (groupLast_keys_nodup rows)

/-- **C4**, counterexample — two raw rows share the `(event_date, firm)` pair
`(0, "A")`, yet `mk_event_df` outputs **zero** events for the pair, not
exactly one: deduplication keeps the chronologically last row (action
`"hold"`), and the later up/down filter then drops the pair entirely. -/
theorem mk_event_df_drops_pair_cex :
    mk_event_df [⟨0, 0, "A", "up"⟩, ⟨0, 1, "A", "hold"⟩] = .ok []
    ∧ keyOf ⟨0, 0, "A", "up"⟩ = keyOf ⟨0, 1, "A", "hold"⟩
    ∧ (⟨0, 0, "A", "up"⟩ : RecRow) ≠ ⟨0, 1, "A", "hold"⟩ := by
  exact ⟨rfl, rfl, by decide⟩

/-- **C4**, amended — for every recommendation input, `mk_event_df` (when it
succeeds) outputs **at most** one event per `(event_date, firm)` pair, and an
event for a pair is produced **exactly when** the chronologically last raw
row of that pair in the time-sorted table survives the up/down action filter
(otherwise the pair yields no event, see the counterexample): each output
event corresponds to that surviving last row, and conversely every pair whose
last row survives contributes an output event; the `event_id` values are
exactly `1..N`, strictly increasing, with `N` the number of surviving
rows. -/
theorem mk_event_df_dedup_amended :
    ∀ (rows : List RecRow) (out : List (Nat × Event)),
      mk_event_df rows = .ok out →
      out.map Prod.fst = List.range' 1 out.length
      ∧ (∀ k : Int × String,
          (out.filter (fun p => (p.2.event_date, p.2.firm) = k)).length ≤ 1)
      ∧ (∀ p ∈ out, ∃ r : RecRow,
          ((sortedRows rows).filter
            (fun x => keyOf x = (p.2.event_date, p.2.firm))).getLast? = some r
          ∧ actionMatches r.action = true
          ∧ p.2.firm = r.firm ∧ p.2.event_date = r.date
          ∧ mk_et r.action = .ok p.2.event_type)
      ∧ (∀ (k : Int × String) (r : RecRow),
          ((sortedRows rows).filter (fun x => keyOf x = k)).getLast? = some r →
          actionMatches r.action = true →
          ∃ p ∈ out, (p.2.event_date, p.2.firm) = k) := by
  intro rows out h
  unfold mk_event_df at h
  cases hm : mapEx (fun r => (mk_et r.action).map (fun et => Event.mk r.firm r.date et))
      (survivors rows) with
  | error e => rw [hm] at h; simp at h
  | ok events =>
    rw [hm] at h
    have hout : out = idsFrom 1 events := by simpa using h.symm
    subst hout
    have hfa := mapEx_ok_forall₂ _ _ _ hm
    have hfields : ∀ (x : RecRow) (y : Event),
        (mk_et x.action).map (fun et => Event.mk x.firm x.date et) = .ok y →
        y.firm = x.firm ∧ y.event_date = x.date ∧ mk_et x.action = .ok y.event_type := by
      intro x y hxy
      cases hmk : mk_et x.action with
      | error e => rw [hmk] at hxy; simp [Except.map] at hxy
      | ok et =>
        rw [hmk] at hxy
        have hy : Event.mk x.firm x.date et = y := by
          simpa [Except.map] using hxy
        subst hy
        exact ⟨rfl, rfl, rfl⟩
    refine ⟨?_, ?_, ?_, ?_⟩
    · rw [idsFrom_map_fst, idsFrom_length]
    · intro k
      refine Nat.le_trans (Nat.le_of_eq (idsFrom_filter_length
        (fun e : Event => decide ((e.event_date, e.firm) = k)) 1 events)) ?_
      apply filter_len_le_one_of_nodup_map (fun e : Event => (e.event_date, e.firm))
      have hkeys : events.map (fun e => (e.event_date, e.firm)) =
          (survivors rows).map keyOf := by
        refine (forall₂_map_eq keyOf (fun e => (e.event_date, e.firm)) hfa ?_).symm
        intro x y hxy
        obtain ⟨hfirm, hdate, -⟩ := hfields x y hxy
        simp [keyOf, hfirm, hdate]
      rw [hkeys]
      exact survivors_keys_nodup rows
    · intro p hp
      have hsnd : p.2 ∈ events := mem_idsFrom_snd _ _ hp
      obtain ⟨x, hx, hxy⟩ := forall₂_mem_right hfa p.2 hsnd
      obtain ⟨hfirm, hdate, het⟩ := hfields x p.2 hxy
      have hxg := List.mem_filter.mp hx
      refine ⟨x, ?_, hxg.2, hfirm, hdate, het⟩
      have hgl := groupLast_mem_key rows x hxg.1
      rw [hdate, hfirm]
      exact hgl
    · intro k r hlast hmatch
      have hmem := mem_of_getLast?_eq hlast
      have hfm := List.mem_filter.mp hmem
      have hkr : keyOf r = k := by simpa using hfm.2
      have hkkeys : k ∈ groupKeys rows := by
        rw [← hkr]
        exact (List.mem_insertionSort _).mpr
          (List.mem_dedup.mpr (List.mem_map_of_mem keyOf hfm.1))
      have hrg : r ∈ groupLast rows := List.mem_filterMap.mpr ⟨k, hkkeys, hlast⟩
      have hrs : r ∈ survivors rows := List.mem_filter.mpr ⟨hrg, hmatch⟩
      obtain ⟨y, hy, hxy⟩ := forall₂_mem_left hfa r hrs
      obtain ⟨hfirm, hdate, -⟩ := hfields r y hxy
      have hyk : (y.event_date, y.firm) = k := by
        rw [hdate, hfirm, ← hkr]
        exact rfl
      have hy' : y ∈ (idsFrom 1 events).map Prod.snd := by
        rw [idsFrom_map_snd]
        exact hy
      obtain ⟨p, hp, hpy⟩ := List.mem_map.mp hy'
      refine ⟨p, hp, ?_⟩
      rw [hpy]
      exact hyk

/-- Witness for `mk_event_df_dedup_amended`: a single "up" recommendation
produces one event with id 1. -/
theorem mk_event_df_dedup_amended_witness :
    mk_event_df [⟨0, 0, "a", "up"⟩] = .ok [(1, ⟨"A", 0, "upgrade"⟩)]
    ∧ ([((1 : Nat), (⟨"A", 0, "upgrade"⟩ : Event))].map Prod.fst =
        List.range' 1 ([((1 : Nat), (⟨"A", 0, "upgrade"⟩ : Event))].length))
    ∧ (∃ p ∈ [((1 : Nat), (⟨"A", 0, "upgrade"⟩ : Event))],
        (p.2.event_date, p.2.firm) = ((0 : Int), "A")) :=
  ⟨rfl,
   (mk_event_df_dedup_amended [⟨0, 0, "a", "up"⟩]
     [(1, ⟨"A", 0, "upgrade"⟩)] rfl).1,
   (mk_event_df_dedup_amended [⟨0, 0, "a", "up"⟩]
     [(1, ⟨"A", 0, "upgrade"⟩)] rfl).2.2.2
     ((0 : Int), "A") ⟨0, 0, "A", "up"⟩ rfl rfl⟩

/-- An element of the action-mapped run that is neither `"up"` nor `"down"`
makes `mapEx` fail, with the error carrying such an offending action. -/
theorem mapEx_mk_et_error :
    ∀ (l : List RecRow),
      (∃ r ∈ l, r.action ≠ "up" ∧ r.action ≠ "down") →
      ∃ v, mapEx (fun r => (mk_et r.action).map (fun et => Event.mk r.firm r.date et)) l
          = .error v
        ∧ v ≠ "up" ∧ v ≠ "down" ∧ v ∈ l.map (fun r => r.action) := by
  intro l
  induction l with
  | nil => rintro ⟨r, hr, -⟩; cases hr
  | cons x xs ih =>
    rintro ⟨r, hr, hup, hdown⟩
    by_cases hxd : x.action = "down"
    · have hbad : ∃ r ∈ xs, r.action ≠ "up" ∧ r.action ≠ "down" := by
        rcases List.mem_cons.mp hr with rfl | hr'
        · exact absurd hxd hdown
        · exact ⟨r, hr', hup, hdown⟩
      obtain ⟨v, hv, h1, h2, h3⟩ := ih hbad
      refine ⟨v, ?_, h1, h2, List.mem_cons_of_mem _ h3⟩
      have hg : (mk_et x.action).map (fun et => Event.mk x.firm x.date et)
          = Except.ok (Event.mk x.firm x.date "downgrade") := by
        simp [mk_et, hxd, Except.map]
      simp only [mapEx, hg, hv]
    · by_cases hxu : x.action = "up"
      · have hbad : ∃ r ∈ xs, r.action ≠ "up" ∧ r.action ≠ "down" := by
          rcases List.mem_cons.mp hr with rfl | hr'
          · exact absurd hxu hup
          · exact ⟨r, hr', hup, hdown⟩
        obtain ⟨v, hv, h1, h2, h3⟩ := ih hbad
        refine ⟨v, ?_, h1, h2, List.mem_cons_of_mem _ h3⟩
        have hg : (mk_et x.action).map (fun et => Event.mk x.firm x.date et)
            = Except.ok (Event.mk x.firm x.date "upgrade") := by
          simp [mk_et, hxd, hxu, Except.map]
        simp only [mapEx, hg, hv]
      · refine ⟨x.action, ?_, hxu, hxd, by simp⟩
        have hg : (mk_et x.action).map (fun et => Event.mk x.firm x.date et)
            = Except.error x.action := by
          simp [mk_et, hxd, hxu, Except.map]
        simp only [mapEx, hg]

/-- **C6** — on the deduplicated rows, `mk_event_df` keeps only those whose
action matches `"up"` or `"down"` as a substring, maps `"down"`→`"downgrade"`
and `"up"`→`"upgrade"`, and if any surviving row's action is neither exactly
`"up"` nor `"down"`, it fails with the unrecognized-action error carrying an
offending value — the error is returned to the caller, not caught
internally. -/
theorem mk_event_df_unrecognized_action :
    ∀ (rows : List RecRow),
      (∃ r ∈ survivors rows, r.action ≠ "up" ∧ r.action ≠ "down") →
      ∃ v, mk_event_df rows = .error v
        ∧ v ≠ "up" ∧ v ≠ "down"
        ∧ v ∈ (survivors rows).map (fun r => r.action) := by
  intro rows hbad
  obtain ⟨v, hv, h1, h2, h3⟩ := mapEx_mk_et_error (survivors rows) hbad
  refine ⟨v, ?_, h1, h2, h3⟩
  unfold mk_event_df
  rw [hv]

/-- Witness for `mk_event_df_unrecognized_action`: the action `"upgrade"`
contains `"up"` (so the row survives the filter) but is not exactly `"up"`,
and the run fails carrying it. -/
theorem mk_event_df_unrecognized_action_witness :
    ∃ v, mk_event_df [⟨0, 0, "a", "upgrade"⟩] = .error v
      ∧ v ≠ "up" ∧ v ≠ "down"
      ∧ v ∈ (survivors [⟨0, 0, "a", "upgrade"⟩]).map (fun r => r.action) :=
  mk_event_df_unrecognized_action [⟨0, 0, "a", "upgrade"⟩] (by decide)

end EventStudy
